import Mathlib

/-!
# Verification of the `Garbage-Collector` mark-and-sweep collector

Shallow embedding of `src/gc.rs`: a tracing (mark-and-sweep) garbage
collector.  A `GcBox` (here `Cell`) pairs a mark bit with a payload; the
payload of the example type `MyData` holds an `i32` and outgoing managed
references (`Gc` pointers) to other cells — we model a payload by its
integer `value` and the list `children` of addresses of its outgoing
managed references (for `MyData` this list has length at most one; the
`Trace` contract allows any number).  Machine addresses (`NonNull`
pointers) are modelled by `Nat`; the allocator's fresh-address supply is
a monotone counter, so distinct allocations receive distinct addresses,
as distinct live boxes have distinct addresses in the source.

The heap's backing store is an association list `Mem` from addresses to
cells; its key list is exactly the `objects` vector of the Rust `Heap`
(every allocated box is pushed onto `objects` and boxes are freed only
by the sweep, which also removes them from `objects`).  Dereferencing an
address that is not allocated is undefined behaviour in the source; the
model skips such addresses.

The recursive depth-first trace of `Gc::trace` is embedded as a
work-list iteration (`markStackF`), indexed by a fuel argument so that
it is structurally recursive and executable; `markBound` fuel is always
sufficient (`markStackF_congr`), and `markStack` is the trace run with
that fuel.  `markStack_induction` recovers the natural case analysis of
the traversal.
-/

/-- A `GcBox`: mark bit plus payload (`value` field and the addresses of
the payload's outgoing managed references, i.e. what its `trace` visits). -/
structure Cell where
  marked : Bool
  value : Int
  children : List Nat
deriving DecidableEq

/-- The backing store: allocated cells keyed by address, in allocation
order; its key list is the `objects` vector of the Rust `Heap`. -/
abbrev Mem := List (Nat × Cell)

/-- Dereference an address: the cell stored at `a`, if allocated. -/
def lookupCell : Mem → Nat → Option Cell
  | [], _ => none
  | (k, c) :: rest, a => if k = a then some c else lookupCell rest a

/-- `gc_box.marked.set(true)`: set the mark bit of the cell stored at
address `a`, leaving every other cell untouched. -/
def setMarked : Mem → Nat → Mem
  | [], _ => []
  | (k, c) :: rest, a =>
    if k = a then (k, { c with marked := true }) :: setMarked rest a
    else (k, c) :: setMarked rest a

/-- The unmark phase of `collect_garbage`: clear every mark bit. -/
def clearMarks (mem : Mem) : Mem :=
  mem.map fun p => (p.1, { p.2 with marked := false })

/-- The mark bit of the cell at `a` (`false` if unallocated). -/
def markedAt (mem : Mem) (a : Nat) : Bool :=
  match lookupCell mem a with
  | some c => c.marked
  | none => false

/-- Addresses of the allocated cells, in order: the `objects` vector. -/
def addrs (mem : Mem) : List Nat :=
  mem.map Prod.fst

/-- Total number of outgoing references held by unmarked cells: the
budget of work-list pushes the mark phase can still perform. -/
def unmarkedChildSum (mem : Mem) : Nat :=
  ((mem.filter fun p => !p.2.marked).map fun p => p.2.children.length).sum

/-- Upper bound on the number of work-list iterations of the mark
phase: pending items plus the push budget.  It strictly decreases at
every iteration. -/
def markBound (mem : Mem) (stack : List Nat) : Nat :=
  stack.length + unmarkedChildSum mem

/-- One fuel-indexed run of the mark phase work-list: pop an address;
if its cell is allocated and unmarked, mark it and push its children
(depth-first, ahead of the rest), otherwise drop it.  `markBound` fuel
always suffices (`markStackF_congr`). -/
def markStackF : Nat → Mem → List Nat → Mem
  | 0, mem, _ => mem
  | _ + 1, mem, [] => mem
  | fuel + 1, mem, a :: rest =>
    match lookupCell mem a with
    | none => markStackF fuel mem rest
    | some c =>
      if c.marked then markStackF fuel mem rest
      else markStackF fuel (setMarked mem a) (c.children ++ rest)

/-- The mark phase, as an explicit work-list realisation of the source's
recursive depth-first trace.  `Gc::trace` at address `a` is: if the box
at `a` is unmarked, mark it, then trace each of the payload's managed
references in order (the box's children are processed, depth-first,
before the rest of the work-list, exactly as the recursive calls of
`value.trace()` complete before control returns).  The mark loop of
`collect_garbage` over a root slice `R` is this function started on the
work-list `R`.  An address with no allocated cell is skipped (the source
would dereference a dangling pointer there). -/
def markStack (mem : Mem) (stack : List Nat) : Mem :=
  markStackF (markBound mem stack) mem stack

/-- `Gc::trace`: mark-and-recurse from one managed reference. -/
def Gc.trace (mem : Mem) (a : Nat) : Mem :=
  markStack mem [a]

/-- The mark phase instrumented with its invocation log: alongside the
marked store, the addresses of the cells freshly marked, in order.
These are exactly the cells whose payload `trace()` the source invokes
(a box's `value.trace()` runs exactly when the box goes from unmarked
to marked). -/
def markStackLogF : Nat → Mem → List Nat → Mem × List Nat
  | 0, mem, _ => (mem, [])
  | _ + 1, mem, [] => (mem, [])
  | fuel + 1, mem, a :: rest =>
    match lookupCell mem a with
    | none => markStackLogF fuel mem rest
    | some c =>
      if c.marked then markStackLogF fuel mem rest
      else
        ((markStackLogF fuel (setMarked mem a) (c.children ++ rest)).1,
          a :: (markStackLogF fuel (setMarked mem a) (c.children ++ rest)).2)

/-- The instrumented mark phase run with sufficient fuel. -/
def markStackLog (mem : Mem) (stack : List Nat) : Mem × List Nat :=
  markStackLogF (markBound mem stack) mem stack

/-- The mark-insensitive content of the store: address, payload value and
outgoing references of each cell, in order. -/
def stripMark (mem : Mem) : List (Nat × Int × List Nat) :=
  mem.map fun p => (p.1, p.2.value, p.2.children)

/-- Reachability over the reference graph: a cell is reachable from the
root list `R` if its address is in `R`, or if it is the target of a
managed reference held by a reachable cell.  Only allocated cells are
reachable (each step requires the cell to be present in the store). -/
inductive Reachable (mem : Mem) (R : List Nat) : Nat → Prop
  | root (a : Nat) (c : Cell) : a ∈ R → lookupCell mem a = some c →
      Reachable mem R a
  | child (a b : Nat) (c cb : Cell) : Reachable mem R a →
      lookupCell mem a = some c → b ∈ c.children →
      lookupCell mem b = some cb → Reachable mem R b

/-- Mark-phase invariant: every allocated child of a marked cell is
itself marked or still awaiting processing on the work-list. -/
def ChildrenCovered (mem : Mem) (stack : List Nat) : Prop :=
  ∀ a c, lookupCell mem a = some c → c.marked = true →
    ∀ b ∈ c.children, ∀ cb, lookupCell mem b = some cb →
      markedAt mem b = true ∨ b ∈ stack

/-- The `Heap` of `gc.rs`: all allocated cells (the association list
carries the boxes' contents, keyed by address, in the order of the
`objects` vector), the registered roots, and the allocator's
fresh-address counter. -/
structure Heap where
  objects : Mem
  roots : List Nat
  nextAddr : Nat
deriving DecidableEq

/-- `Heap::new`: empty object and root sets. -/
def Heap.new : Heap :=
  ⟨[], [], 0⟩

/-- `Heap::allocate`: box the payload (`GcBox::new` initialises the mark
bit to `false`), push the box's address onto `objects`, and return the
managed reference (the fresh address).  The payload is given by its
integer value and the outgoing references it holds.  No counter is
consulted and no collection is triggered. -/
def Heap.allocate (h : Heap) (v : Int) (cs : List Nat) : Heap × Nat :=
  (⟨h.objects ++ [(h.nextAddr, ⟨false, v, cs⟩)], h.roots, h.nextAddr + 1⟩,
    h.nextAddr)

/-- `Heap::register_root`: push the address unless already present. -/
def Heap.register_root (h : Heap) (a : Nat) : Heap :=
  if a ∈ h.roots then h else ⟨h.objects, h.roots ++ [a], h.nextAddr⟩

/-- `Heap::unregister_root`: retain every root different from `a`. -/
def Heap.unregister_root (h : Heap) (a : Nat) : Heap :=
  ⟨h.objects, h.roots.filter (fun r => r != a), h.nextAddr⟩

/-- `Heap::collect_garbage` over an explicitly supplied root slice `R`:
clear every mark bit, mark from `R`, then sweep — retain exactly the
marked cells and drop each unmarked box.  The second component is the
sweep's destruction log: the addresses whose box is dropped, in sweep
order (each drop runs the payload's finalization and releases the box's
storage, which the source performs by side effect inside `retain`). -/
def Heap.collect_garbage (h : Heap) (R : List Nat) : Heap × List Nat :=
  (⟨(markStack (clearMarks h.objects) R).filter (fun p => p.2.marked),
      h.roots, h.nextAddr⟩,
    ((markStack (clearMarks h.objects) R).filter
      (fun p => !p.2.marked)).map Prod.fst)

/-- The sequence of cells whose payload `trace()` is invoked during
`collect_garbage(R)`: the invocation log of the mark phase run on the
freshly unmarked store. -/
def Heap.collectTraceLog (h : Heap) (R : List Nat) : List Nat :=
  (markStackLog (clearMarks h.objects) R).2

/-- `RootGuard`: holds the (exclusively borrowed) heap and the rooted
address. -/
structure RootGuard where
  heap : Heap
  ptr : Nat
deriving DecidableEq

/-- `RootGuard::new`: register the reference's address on the heap. -/
def RootGuard.new (h : Heap) (gc : Nat) : RootGuard :=
  ⟨h.register_root gc, gc⟩

/-- The guard's release (`Drop::drop`): unregister the address. -/
def RootGuard.drop (g : RootGuard) : Heap :=
  g.heap.unregister_root g.ptr

/-- `n` successive calls to `Heap::allocate` with inert payloads. -/
def allocN (h : Heap) : Nat → Heap
  | 0 => h
  | n + 1 => ((allocN h n).allocate 0 []).1

theorem unmarkedChildSum_setMarked_le (mem : Mem) (a : Nat) :
    unmarkedChildSum (setMarked mem a) ≤ unmarkedChildSum mem := by
  induction mem with
  | nil => simp [setMarked]
  | cons p rest ih =>
    obtain ⟨k, d⟩ := p
    by_cases hka : k = a
    · cases hm : d.marked with
      | true =>
        simp only [unmarkedChildSum, setMarked, if_pos hka,
          List.filter_cons, hm] at ih ⊢
        simpa using ih
      | false =>
        simp only [unmarkedChildSum, setMarked, if_pos hka,
          List.filter_cons, hm] at ih ⊢
        simp only [Bool.not_true, Bool.not_false, if_neg, if_pos]
        simp at ih ⊢
        omega
    · simp only [unmarkedChildSum, setMarked, if_neg hka,
        List.filter_cons] at ih ⊢
      cases hm : d.marked <;> simp [hm] at ih ⊢ <;> omega

theorem unmarkedChildSum_setMarked_add_le (mem : Mem) (a : Nat) (c : Cell)
    (hl : lookupCell mem a = some c) (hm : c.marked = false) :
    unmarkedChildSum (setMarked mem a) + c.children.length ≤
      unmarkedChildSum mem := by
  induction mem with
  | nil => simp [lookupCell] at hl
  | cons p rest ih =>
    obtain ⟨k, d⟩ := p
    rw [lookupCell] at hl
    by_cases hka : k = a
    · rw [if_pos hka] at hl
      have hd : d = c := by injection hl
      subst hd
      have hle := unmarkedChildSum_setMarked_le rest a
      simp only [unmarkedChildSum, setMarked, if_pos hka,
        List.filter_cons, hm] at hle ⊢
      simp at hle ⊢
      omega
    · rw [if_neg hka] at hl
      have := ih hl
      simp only [unmarkedChildSum, setMarked, if_neg hka,
        List.filter_cons] at this ⊢
      cases hmd : d.marked <;> simp [hmd] at this ⊢ <;> omega

theorem markBound_cons (mem : Mem) (a : Nat) (rest : List Nat) :
    markBound mem (a :: rest) = markBound mem rest + 1 := by
  simp [markBound, List.length_cons]
  omega

theorem markBound_mark_lt {mem : Mem} {a : Nat} {c : Cell}
    (hl : lookupCell mem a = some c) (hm : c.marked = false)
    (rest : List Nat) :
    markBound (setMarked mem a) (c.children ++ rest) <
      markBound mem (a :: rest) := by
  have := unmarkedChildSum_setMarked_add_le mem a c hl hm
  simp only [markBound, List.length_append, List.length_cons]
  omega

/-- Any two sufficient fuels compute the same marking. -/
theorem markStackF_congr :
    ∀ fuel fuel' (mem : Mem) (stack : List Nat),
      markBound mem stack ≤ fuel → markBound mem stack ≤ fuel' →
      markStackF fuel mem stack = markStackF fuel' mem stack := by
  intro fuel
  induction fuel with
  | zero =>
    intro fuel' mem stack hf _
    have : stack = [] := by
      cases stack with
      | nil => rfl
      | cons a rest => rw [markBound_cons] at hf; omega
    subst this
    cases fuel' <;> rfl
  | succ fuel ih =>
    intro fuel' mem stack hf hf'
    cases stack with
    | nil => cases fuel' <;> rfl
    | cons a rest =>
      have h1 : 1 ≤ markBound mem (a :: rest) := by
        rw [markBound_cons]; omega
      cases fuel' with
      | zero => omega
      | succ fuel' =>
        rw [markBound_cons] at hf hf'
        show (match lookupCell mem a with
          | none => markStackF fuel mem rest
          | some c =>
            if c.marked then markStackF fuel mem rest
            else markStackF fuel (setMarked mem a) (c.children ++ rest)) =
          (match lookupCell mem a with
          | none => markStackF fuel' mem rest
          | some c =>
            if c.marked then markStackF fuel' mem rest
            else markStackF fuel' (setMarked mem a) (c.children ++ rest))
        cases hl : lookupCell mem a with
        | none => exact ih fuel' mem rest (by omega) (by omega)
        | some c =>
          show (if c.marked = true then markStackF fuel mem rest
              else markStackF fuel (setMarked mem a) (c.children ++ rest)) =
            (if c.marked = true then markStackF fuel' mem rest
              else markStackF fuel' (setMarked mem a) (c.children ++ rest))
          by_cases hm : c.marked = true
          · rw [if_pos hm, if_pos hm]
            exact ih fuel' mem rest (by omega) (by omega)
          · rw [if_neg hm, if_neg hm]
            have hm' : c.marked = false := by simpa using hm
            have hlt := markBound_mark_lt hl hm' rest
            rw [markBound_cons] at hlt
            exact ih fuel' (setMarked mem a) (c.children ++ rest)
              (by omega) (by omega)

theorem markStack_nil (mem : Mem) : markStack mem [] = mem := by
  unfold markStack
  generalize markBound mem [] = f
  cases f <;> rfl

theorem markStack_cons_none {mem : Mem} {a : Nat} (rest : List Nat)
    (hl : lookupCell mem a = none) :
    markStack mem (a :: rest) = markStack mem rest := by
  unfold markStack
  rw [markBound_cons]
  show (match lookupCell mem a with
    | none => markStackF (markBound mem rest) mem rest
    | some c =>
      if c.marked then markStackF (markBound mem rest) mem rest
      else markStackF (markBound mem rest) (setMarked mem a)
        (c.children ++ rest)) = markStackF (markBound mem rest) mem rest
  rw [hl]

theorem markStack_cons_marked {mem : Mem} {a : Nat} {c : Cell} (rest : List Nat)
    (hl : lookupCell mem a = some c) (hm : c.marked = true) :
    markStack mem (a :: rest) = markStack mem rest := by
  unfold markStack
  rw [markBound_cons]
  show (match lookupCell mem a with
    | none => markStackF (markBound mem rest) mem rest
    | some c =>
      if c.marked then markStackF (markBound mem rest) mem rest
      else markStackF (markBound mem rest) (setMarked mem a)
        (c.children ++ rest)) = markStackF (markBound mem rest) mem rest
  rw [hl]
  show (if c.marked = true then markStackF (markBound mem rest) mem rest
    else markStackF (markBound mem rest) (setMarked mem a)
      (c.children ++ rest)) = markStackF (markBound mem rest) mem rest
  rw [if_pos hm]

theorem markStack_cons_unmarked {mem : Mem} {a : Nat} {c : Cell}
    (rest : List Nat) (hl : lookupCell mem a = some c) (hm : c.marked = false) :
    markStack mem (a :: rest) =
      markStack (setMarked mem a) (c.children ++ rest) := by
  unfold markStack
  rw [markBound_cons]
  show (match lookupCell mem a with
    | none => markStackF (markBound mem rest) mem rest
    | some c =>
      if c.marked then markStackF (markBound mem rest) mem rest
      else markStackF (markBound mem rest) (setMarked mem a)
        (c.children ++ rest)) =
    markStackF (markBound (setMarked mem a) (c.children ++ rest))
      (setMarked mem a) (c.children ++ rest)
  rw [hl]
  show (if c.marked = true then markStackF (markBound mem rest) mem rest
    else markStackF (markBound mem rest) (setMarked mem a)
      (c.children ++ rest)) =
    markStackF (markBound (setMarked mem a) (c.children ++ rest))
      (setMarked mem a) (c.children ++ rest)
  rw [if_neg (by simp [hm])]
  have hlt := markBound_mark_lt hl hm rest
  rw [markBound_cons] at hlt
  exact markStackF_congr _ _ _ _ (by omega) (le_refl _)

/-- Case analysis along the traversal order of the mark phase. -/
theorem markStack_induction (motive : Mem → List Nat → Prop)
    (base : ∀ mem, motive mem [])
    (skip_missing : ∀ mem a rest, lookupCell mem a = none →
      motive mem rest → motive mem (a :: rest))
    (skip_marked : ∀ mem a rest c, lookupCell mem a = some c →
      c.marked = true → motive mem rest → motive mem (a :: rest))
    (mark : ∀ mem a rest c, lookupCell mem a = some c → c.marked = false →
      motive (setMarked mem a) (c.children ++ rest) → motive mem (a :: rest)) :
    ∀ mem stack, motive mem stack := by
  intro mem stack
  generalize hn : markBound mem stack = n
  induction n using Nat.strong_induction_on generalizing mem stack with
  | _ n ih =>
    cases stack with
    | nil => exact base mem
    | cons a rest =>
      subst hn
      cases hl : lookupCell mem a with
      | none =>
        refine skip_missing mem a rest hl
          (ih (markBound mem rest) ?_ mem rest rfl)
        rw [markBound_cons]
        omega
      | some c =>
        cases hm : c.marked with
        | true =>
          refine skip_marked mem a rest c hl hm
            (ih (markBound mem rest) ?_ mem rest rfl)
          rw [markBound_cons]
          omega
        | false =>
          exact mark mem a rest c hl hm
            (ih (markBound (setMarked mem a) (c.children ++ rest))
              (markBound_mark_lt hl hm rest) _ _ rfl)

theorem markStackLogF_congr :
    ∀ fuel fuel' (mem : Mem) (stack : List Nat),
      markBound mem stack ≤ fuel → markBound mem stack ≤ fuel' →
      markStackLogF fuel mem stack = markStackLogF fuel' mem stack := by
  intro fuel
  induction fuel with
  | zero =>
    intro fuel' mem stack hf _
    have : stack = [] := by
      cases stack with
      | nil => rfl
      | cons a rest => rw [markBound_cons] at hf; omega
    subst this
    cases fuel' <;> rfl
  | succ fuel ih =>
    intro fuel' mem stack hf hf'
    cases stack with
    | nil => cases fuel' <;> rfl
    | cons a rest =>
      cases fuel' with
      | zero => rw [markBound_cons] at hf'; omega
      | succ fuel' =>
        rw [markBound_cons] at hf hf'
        show (match lookupCell mem a with
          | none => markStackLogF fuel mem rest
          | some c =>
            if c.marked then markStackLogF fuel mem rest
            else
              ((markStackLogF fuel (setMarked mem a) (c.children ++ rest)).1,
                a :: (markStackLogF fuel (setMarked mem a)
                  (c.children ++ rest)).2)) =
          (match lookupCell mem a with
          | none => markStackLogF fuel' mem rest
          | some c =>
            if c.marked then markStackLogF fuel' mem rest
            else
              ((markStackLogF fuel' (setMarked mem a) (c.children ++ rest)).1,
                a :: (markStackLogF fuel' (setMarked mem a)
                  (c.children ++ rest)).2))
        cases hl : lookupCell mem a with
        | none => exact ih fuel' mem rest (by omega) (by omega)
        | some c =>
          show (if c.marked = true then markStackLogF fuel mem rest
              else
                ((markStackLogF fuel (setMarked mem a) (c.children ++ rest)).1,
                  a :: (markStackLogF fuel (setMarked mem a)
                    (c.children ++ rest)).2)) =
            (if c.marked = true then markStackLogF fuel' mem rest
              else
                ((markStackLogF fuel' (setMarked mem a) (c.children ++ rest)).1,
                  a :: (markStackLogF fuel' (setMarked mem a)
                    (c.children ++ rest)).2))
          by_cases hm : c.marked = true
          · rw [if_pos hm, if_pos hm]
            exact ih fuel' mem rest (by omega) (by omega)
          · rw [if_neg hm, if_neg hm]
            have hm' : c.marked = false := by simpa using hm
            have hlt := markBound_mark_lt hl hm' rest
            rw [markBound_cons] at hlt
            rw [ih fuel' (setMarked mem a) (c.children ++ rest)
              (by omega) (by omega)]

theorem markStackLog_nil (mem : Mem) : markStackLog mem [] = (mem, []) := by
  unfold markStackLog
  generalize markBound mem [] = f
  cases f <;> rfl

theorem markStackLog_cons_none {mem : Mem} {a : Nat} (rest : List Nat)
    (hl : lookupCell mem a = none) :
    markStackLog mem (a :: rest) = markStackLog mem rest := by
  unfold markStackLog
  rw [markBound_cons]
  show (match lookupCell mem a with
    | none => markStackLogF (markBound mem rest) mem rest
    | some c =>
      if c.marked then markStackLogF (markBound mem rest) mem rest
      else
        ((markStackLogF (markBound mem rest) (setMarked mem a)
            (c.children ++ rest)).1,
          a :: (markStackLogF (markBound mem rest) (setMarked mem a)
            (c.children ++ rest)).2)) =
    markStackLogF (markBound mem rest) mem rest
  rw [hl]

theorem markStackLog_cons_marked {mem : Mem} {a : Nat} {c : Cell}
    (rest : List Nat) (hl : lookupCell mem a = some c) (hm : c.marked = true) :
    markStackLog mem (a :: rest) = markStackLog mem rest := by
  unfold markStackLog
  rw [markBound_cons]
  show (match lookupCell mem a with
    | none => markStackLogF (markBound mem rest) mem rest
    | some c =>
      if c.marked then markStackLogF (markBound mem rest) mem rest
      else
        ((markStackLogF (markBound mem rest) (setMarked mem a)
            (c.children ++ rest)).1,
          a :: (markStackLogF (markBound mem rest) (setMarked mem a)
            (c.children ++ rest)).2)) =
    markStackLogF (markBound mem rest) mem rest
  rw [hl]
  show (if c.marked = true then markStackLogF (markBound mem rest) mem rest
    else
      ((markStackLogF (markBound mem rest) (setMarked mem a)
          (c.children ++ rest)).1,
        a :: (markStackLogF (markBound mem rest) (setMarked mem a)
          (c.children ++ rest)).2)) =
    markStackLogF (markBound mem rest) mem rest
  rw [if_pos hm]

theorem markStackLog_cons_unmarked {mem : Mem} {a : Nat} {c : Cell}
    (rest : List Nat) (hl : lookupCell mem a = some c) (hm : c.marked = false) :
    markStackLog mem (a :: rest) =
      ((markStackLog (setMarked mem a) (c.children ++ rest)).1,
        a :: (markStackLog (setMarked mem a) (c.children ++ rest)).2) := by
  unfold markStackLog
  rw [markBound_cons]
  show (match lookupCell mem a with
    | none => markStackLogF (markBound mem rest) mem rest
    | some c =>
      if c.marked then markStackLogF (markBound mem rest) mem rest
      else
        ((markStackLogF (markBound mem rest) (setMarked mem a)
            (c.children ++ rest)).1,
          a :: (markStackLogF (markBound mem rest) (setMarked mem a)
            (c.children ++ rest)).2)) =
    ((markStackLogF (markBound (setMarked mem a) (c.children ++ rest))
        (setMarked mem a) (c.children ++ rest)).1,
      a :: (markStackLogF (markBound (setMarked mem a) (c.children ++ rest))
        (setMarked mem a) (c.children ++ rest)).2)
  rw [hl]
  show (if c.marked = true then markStackLogF (markBound mem rest) mem rest
    else
      ((markStackLogF (markBound mem rest) (setMarked mem a)
          (c.children ++ rest)).1,
        a :: (markStackLogF (markBound mem rest) (setMarked mem a)
          (c.children ++ rest)).2)) =
    ((markStackLogF (markBound (setMarked mem a) (c.children ++ rest))
        (setMarked mem a) (c.children ++ rest)).1,
      a :: (markStackLogF (markBound (setMarked mem a) (c.children ++ rest))
        (setMarked mem a) (c.children ++ rest)).2)
  rw [if_neg (by simp [hm])]
  have hlt := markBound_mark_lt hl hm rest
  rw [markBound_cons] at hlt
  rw [markStackLogF_congr (markBound mem rest)
    (markBound (setMarked mem a) (c.children ++ rest))
    (setMarked mem a) (c.children ++ rest) (by omega) (le_refl _)]

/-- The instrumented run computes the same marking as `markStack`. -/
theorem markStackLog_fst (mem : Mem) (stack : List Nat) :
    (markStackLog mem stack).1 = markStack mem stack := by
  induction mem, stack using markStack_induction with
  | base mem => rw [markStackLog_nil, markStack_nil]
  | skip_missing mem a rest hl ih =>
    rw [markStackLog_cons_none rest hl, markStack_cons_none rest hl]
    exact ih
  | skip_marked mem a rest c hl hm ih =>
    rw [markStackLog_cons_marked rest hl hm, markStack_cons_marked rest hl hm]
    exact ih
  | mark mem a rest c hl hm ih =>
    rw [markStackLog_cons_unmarked rest hl hm,
      markStack_cons_unmarked rest hl hm]
    exact ih


theorem lookupCell_setMarked_ne {a b : Nat} (mem : Mem) (hab : a ≠ b) :
    lookupCell (setMarked mem a) b = lookupCell mem b := by
  induction mem with
  | nil => simp [setMarked, lookupCell]
  | cons p rest ih =>
    obtain ⟨k, d⟩ := p
    by_cases hka : k = a
    · have hkb : ¬k = b := fun h => hab (hka.symm.trans h)
      simp only [setMarked, if_pos hka, lookupCell, if_neg hkb]
      exact ih
    · by_cases hkb : k = b
      · simp only [setMarked, if_neg hka, lookupCell, if_pos hkb]
      · simp only [setMarked, if_neg hka, lookupCell, if_neg hkb]
        exact ih

theorem lookupCell_setMarked_self (mem : Mem) (a : Nat) :
    lookupCell (setMarked mem a) a =
      (lookupCell mem a).map fun c => { c with marked := true } := by
  induction mem with
  | nil => simp [setMarked, lookupCell]
  | cons p rest ih =>
    obtain ⟨k, d⟩ := p
    by_cases hka : k = a <;> simp [setMarked, lookupCell, hka, ih]

theorem lookupCell_clearMarks (mem : Mem) (b : Nat) :
    lookupCell (clearMarks mem) b =
      (lookupCell mem b).map fun c => { c with marked := false } := by
  induction mem with
  | nil => simp [clearMarks, lookupCell]
  | cons p rest ih =>
    simp only [clearMarks, List.map_cons] at *
    by_cases hpb : p.1 = b <;> simp_all [lookupCell, clearMarks]

theorem markedAt_clearMarks (mem : Mem) (b : Nat) :
    markedAt (clearMarks mem) b = false := by
  rw [markedAt, lookupCell_clearMarks]
  cases lookupCell mem b <;> simp

theorem markedAt_setMarked_of_marked {mem : Mem} {b : Nat} (a : Nat)
    (h : markedAt mem b = true) : markedAt (setMarked mem a) b = true := by
  by_cases hab : a = b
  · subst hab
    unfold markedAt at *
    rw [lookupCell_setMarked_self]
    cases hc : lookupCell mem a <;> simp [hc] at h ⊢
  · unfold markedAt at *
    rw [lookupCell_setMarked_ne mem hab]
    exact h

theorem markedAt_setMarked_self {mem : Mem} {a : Nat} {c : Cell}
    (hl : lookupCell mem a = some c) : markedAt (setMarked mem a) a = true := by
  unfold markedAt
  rw [lookupCell_setMarked_self, hl]
  simp

theorem stripMark_setMarked (mem : Mem) (a : Nat) :
    stripMark (setMarked mem a) = stripMark mem := by
  induction mem with
  | nil => rfl
  | cons p rest ih =>
    obtain ⟨k, d⟩ := p
    by_cases hka : k = a <;> simp [stripMark, setMarked, hka] <;>
      simpa [stripMark] using ih

theorem stripMark_clearMarks (mem : Mem) :
    stripMark (clearMarks mem) = stripMark mem := by
  induction mem with
  | nil => rfl
  | cons p rest ih => simp_all [stripMark, clearMarks]

theorem stripMark_markStack (mem : Mem) (stack : List Nat) :
    stripMark (markStack mem stack) = stripMark mem := by
  induction mem, stack using markStack_induction with
  | base mem => rw [markStack_nil]
  | skip_missing mem a rest hl ih => rw [markStack_cons_none rest hl]; exact ih
  | skip_marked mem a rest c hl hm ih => rw [markStack_cons_marked rest hl hm]; exact ih
  | mark mem a rest c hl hm ih =>
    rw [markStack_cons_unmarked rest hl hm]
    rw [ih, stripMark_setMarked]

theorem Reachable.mem_addrs {mem : Mem} {R : List Nat} {a : Nat}
    (h : Reachable mem R a) : a ∈ addrs mem := by
  have : ∃ c, lookupCell mem a = some c := by
    cases h with
    | root a c _ hl => exact ⟨c, hl⟩
    | child a b c cb _ _ _ hl => exact ⟨cb, hl⟩
  obtain ⟨c, hl⟩ := this
  clear h
  induction mem with
  | nil => simp [lookupCell] at hl
  | cons p rest ih =>
    obtain ⟨k, d⟩ := p
    rw [lookupCell] at hl
    by_cases hka : k = a
    · simp [addrs, hka]
    · rw [if_neg hka] at hl
      simp [addrs] at ih ⊢
      exact Or.inr (ih hl)

theorem Reachable.mono {mem : Mem} {R R' : List Nat} {a : Nat}
    (hsub : ∀ x ∈ R, x ∈ R') (h : Reachable mem R a) : Reachable mem R' a := by
  induction h with
  | root a c ha hl => exact .root a c (hsub a ha) hl
  | child a b c cb _ hl hb hlb ih => exact .child a b c cb ih hl hb hlb

theorem Reachable_append_iff {mem : Mem} {X Y : List Nat} {a : Nat} :
    Reachable mem (X ++ Y) a ↔ Reachable mem X a ∨ Reachable mem Y a := by
  constructor
  · intro h
    induction h with
    | root a c ha hl =>
      rcases List.mem_append.mp ha with h | h
      · exact Or.inl (.root a c h hl)
      · exact Or.inr (.root a c h hl)
    | child a b c cb _ hl hb hlb ih =>
      rcases ih with h | h
      · exact Or.inl (.child a b c cb h hl hb hlb)
      · exact Or.inr (.child a b c cb h hl hb hlb)
  · intro h
    rcases h with h | h
    · exact h.mono fun x hx => List.mem_append.mpr (Or.inl hx)
    · exact h.mono fun x hx => List.mem_append.mpr (Or.inr hx)

/-- Prepending a traversal step: anything reachable from the children of
a reachable cell is reachable. -/
theorem Reachable.step_up {mem : Mem} {R : List Nat} {a b : Nat} {c : Cell}
    (ha : Reachable mem R a) (hl : lookupCell mem a = some c)
    (h : Reachable mem c.children b) : Reachable mem R b := by
  induction h with
  | root d cd hd hld => exact .child a d c cd ha hl hd hld
  | child d e cd ce _ hld he hle ih => exact .child d e cd ce ih hld he hle

theorem lookupCell_congr_strip {mem mem' : Mem}
    (h : stripMark mem = stripMark mem') (a : Nat) :
    Option.map (fun c => (c.value, c.children)) (lookupCell mem a) =
      Option.map (fun c => (c.value, c.children)) (lookupCell mem' a) := by
  induction mem generalizing mem' with
  | nil =>
    cases mem' with
    | nil => rfl
    | cons q rest' => simp [stripMark] at h
  | cons p rest ih =>
    cases mem' with
    | nil => simp [stripMark] at h
    | cons q rest' =>
      obtain ⟨k, d⟩ := p
      obtain ⟨k', d'⟩ := q
      simp only [stripMark, List.map_cons, List.cons.injEq, Prod.mk.injEq] at h
      obtain ⟨⟨hk, hv, hc⟩, hrest⟩ := h
      rw [lookupCell, lookupCell, ← hk]
      by_cases hka : k = a
      · simp [hka, hv, hc]
      · simp only [if_neg hka]
        exact ih hrest

theorem lookupCell_congr_some {mem mem' : Mem}
    (h : stripMark mem = stripMark mem') {a : Nat} {c : Cell}
    (hl : lookupCell mem a = some c) :
    ∃ c', lookupCell mem' a = some c' ∧ c'.value = c.value ∧
      c'.children = c.children := by
  have := lookupCell_congr_strip h a
  rw [hl] at this
  cases hl' : lookupCell mem' a with
  | none => rw [hl'] at this; simp at this
  | some c' =>
    rw [hl'] at this
    simp only [Option.map_some', Option.some.injEq, Prod.mk.injEq] at this
    exact ⟨c', rfl, this.1.symm, this.2.symm⟩

theorem Reachable.congr {mem mem' : Mem} (h : stripMark mem = stripMark mem')
    {R : List Nat} {a : Nat} (hr : Reachable mem R a) : Reachable mem' R a := by
  induction hr with
  | root a c ha hl =>
    obtain ⟨c', hl', _, _⟩ := lookupCell_congr_some h hl
    exact .root a c' ha hl'
  | child a b c cb _ hl hb hlb ih =>
    obtain ⟨c', hl', _, hcc⟩ := lookupCell_congr_some h hl
    obtain ⟨cb', hlb', _, _⟩ := lookupCell_congr_some h hlb
    exact .child a b c' cb' ih hl' (hcc ▸ hb) hlb'

theorem markedAt_markStack_mono {mem : Mem} {stack : List Nat} {b : Nat}
    (h : markedAt mem b = true) : markedAt (markStack mem stack) b = true := by
  induction mem, stack using markStack_induction with
  | base mem => rwa [markStack_nil]
  | skip_missing mem a rest hl ih => rw [markStack_cons_none rest hl]; exact ih h
  | skip_marked mem a rest c hl hm ih => rw [markStack_cons_marked rest hl hm]; exact ih h
  | mark mem a rest c hl hm ih =>
    rw [markStack_cons_unmarked rest hl hm]
    exact ih (markedAt_setMarked_of_marked a h)

theorem markedAt_markStack_of_mem_stack {mem : Mem} {stack : List Nat} :
    ∀ b c, b ∈ stack → lookupCell mem b = some c →
      markedAt (markStack mem stack) b = true := by
  induction mem, stack using markStack_induction with
  | base mem => intro b c hb _; simp at hb
  | skip_missing mem a rest hl ih =>
    intro b c hb hlb
    rw [markStack_cons_none rest hl]
    rcases List.mem_cons.mp hb with h | h
    · subst h; rw [hl] at hlb; exact absurd hlb (by simp)
    · exact ih b c h hlb
  | skip_marked mem a rest c hl hm ih =>
    intro b cb hb hlb
    rw [markStack_cons_marked rest hl hm]
    rcases List.mem_cons.mp hb with h | h
    · subst h
      apply markedAt_markStack_mono
      unfold markedAt
      rw [hl]
      exact hm
    · exact ih b cb h hlb
  | mark mem a rest c hl hm ih =>
    intro b cb hb hlb
    rw [markStack_cons_unmarked rest hl hm]
    rcases List.mem_cons.mp hb with h | h
    · subst h
      exact markedAt_markStack_mono (markedAt_setMarked_self hlb)
    · have hlb' : ∃ cb', lookupCell (setMarked mem a) b = some cb' := by
        by_cases hab : a = b
        · subst hab
          rw [lookupCell_setMarked_self, hlb]
          exact ⟨_, rfl⟩
        · rw [lookupCell_setMarked_ne mem hab]
          exact ⟨cb, hlb⟩
      obtain ⟨cb', hlb'⟩ := hlb'
      exact ih b cb' (List.mem_append.mpr (Or.inr h)) hlb'

theorem markedAt_markStack_sound {mem : Mem} {stack : List Nat} :
    ∀ b, markedAt (markStack mem stack) b = true →
      markedAt mem b = true ∨ Reachable mem stack b := by
  induction mem, stack using markStack_induction with
  | base mem => intro b h; rw [markStack_nil] at h; exact Or.inl h
  | skip_missing mem a rest hl ih =>
    intro b h
    rw [markStack_cons_none rest hl] at h
    rcases ih b h with h | h
    · exact Or.inl h
    · exact Or.inr (h.mono fun x hx => List.mem_cons_of_mem a hx)
  | skip_marked mem a rest c hl hm ih =>
    intro b h
    rw [markStack_cons_marked rest hl hm] at h
    rcases ih b h with h | h
    · exact Or.inl h
    · exact Or.inr (h.mono fun x hx => List.mem_cons_of_mem a hx)
  | mark mem a rest c hl hm ih =>
    intro b h
    rw [markStack_cons_unmarked rest hl hm] at h
    have hstrip : stripMark (setMarked mem a) = stripMark mem :=
      stripMark_setMarked mem a
    rcases ih b h with h | h
    · by_cases hab : a = b
      · subst hab
        exact Or.inr (.root a c (List.mem_cons_self a rest) hl)
      · left
        rw [markedAt, lookupCell_setMarked_ne mem hab] at h
        rw [markedAt]
        exact h
    · have h' : Reachable mem (c.children ++ rest) b := h.congr hstrip
      rcases Reachable_append_iff.mp h' with h' | h'
      · have hroot : Reachable mem (a :: rest) a :=
          .root a c (List.mem_cons_self a rest) hl
        exact Or.inr (hroot.step_up hl h')
      · exact Or.inr (h'.mono fun x hx => List.mem_cons_of_mem a hx)

theorem childrenCovered_markStack {mem : Mem} {stack : List Nat}
    (h : ChildrenCovered mem stack) :
    ChildrenCovered (markStack mem stack) [] := by
  induction mem, stack using markStack_induction with
  | base mem => rwa [markStack_nil]
  | skip_missing mem a rest hl ih =>
    rw [markStack_cons_none rest hl]
    apply ih
    intro x cx hx hmx b hb cb hcb
    rcases h x cx hx hmx b hb cb hcb with h' | h'
    · exact Or.inl h'
    · rcases List.mem_cons.mp h' with h'' | h''
      · subst h''; rw [hl] at hcb; exact absurd hcb (by simp)
      · exact Or.inr h''
  | skip_marked mem a rest c hl hm ih =>
    rw [markStack_cons_marked rest hl hm]
    apply ih
    intro x cx hx hmx b hb cb hcb
    rcases h x cx hx hmx b hb cb hcb with h' | h'
    · exact Or.inl h'
    · rcases List.mem_cons.mp h' with h'' | h''
      · subst h''
        left
        unfold markedAt
        rw [hl]
        exact hm
      · exact Or.inr h''
  | mark mem a rest c hl hm ih =>
    rw [markStack_cons_unmarked rest hl hm]
    apply ih
    intro x cx hx hmx b hb cb hcb
    by_cases hxa : a = x
    · subst hxa
      rw [lookupCell_setMarked_self, hl] at hx
      simp only [Option.map_some', Option.some.injEq] at hx
      right
      apply List.mem_append.mpr
      left
      rw [← hx] at hb
      exact hb
    · rw [lookupCell_setMarked_ne mem hxa] at hx
      by_cases hab : a = b
      · subst hab
        left
        exact markedAt_setMarked_self hl
      · rw [lookupCell_setMarked_ne mem hab] at hcb
        rcases h x cx hx hmx b hb cb hcb with h' | h'
        · exact Or.inl (markedAt_setMarked_of_marked a h')
        · rcases List.mem_cons.mp h' with h'' | h''
          · exact absurd h''.symm hab
          · exact Or.inr (List.mem_append.mpr (Or.inr h''))

theorem reachable_marked {mem : Mem} {R : List Nat} :
    ∀ b, Reachable mem R b →
      markedAt (markStack (clearMarks mem) R) b = true := by
  have hstrip : stripMark (markStack (clearMarks mem) R) = stripMark mem := by
    rw [stripMark_markStack, stripMark_clearMarks]
  have hcov : ChildrenCovered (markStack (clearMarks mem) R) [] := by
    apply childrenCovered_markStack
    intro x cx hx hmx b' hb' cb' hcb'
    rw [lookupCell_clearMarks] at hx
    cases hx0 : lookupCell mem x with
    | none => rw [hx0] at hx; simp at hx
    | some c0 =>
      rw [hx0] at hx
      simp only [Option.map_some', Option.some.injEq] at hx
      rw [← hx] at hmx
      simp at hmx
  intro b h
  induction h with
  | root a c ha hl =>
    obtain ⟨c', hl', _, _⟩ :=
      lookupCell_congr_some (stripMark_clearMarks mem).symm hl
    exact markedAt_markStack_of_mem_stack a c' ha hl'
  | child a b c cb hr hl hb hlb ih =>
    obtain ⟨c', hl', _, hch⟩ := lookupCell_congr_some hstrip.symm hl
    obtain ⟨cb', hlb', _, _⟩ := lookupCell_congr_some hstrip.symm hlb
    have hc'm : c'.marked = true := by
      unfold markedAt at ih
      rw [hl'] at ih
      exact ih
    rcases hcov a c' hl' hc'm b (hch ▸ hb) cb' hlb' with h' | h'
    · exact h'
    · simp at h'

/-- The heart of mark-and-sweep: after clearing all marks and running
the mark phase from the root list `R`, a cell is marked exactly when it
is reachable from `R` in the original store. -/
theorem markedAt_collect_iff (mem : Mem) (R : List Nat) (b : Nat) :
    markedAt (markStack (clearMarks mem) R) b = true ↔ Reachable mem R b := by
  constructor
  · intro h
    rcases markedAt_markStack_sound b h with h' | h'
    · rw [markedAt_clearMarks] at h'
      exact absurd h' (by simp)
    · exact h'.congr (stripMark_clearMarks mem)
  · exact reachable_marked b

theorem mem_addrs_of_lookup {mem : Mem} {a : Nat} {c : Cell}
    (hl : lookupCell mem a = some c) : a ∈ addrs mem := by
  induction mem with
  | nil => simp [lookupCell] at hl
  | cons p rest ih =>
    obtain ⟨k, d⟩ := p
    rw [lookupCell] at hl
    by_cases hka : k = a
    · simp [addrs, hka]
    · rw [if_neg hka] at hl
      simp only [addrs, List.map_cons, List.mem_cons]
      exact Or.inr (ih hl)

theorem lookup_some_of_mem_addrs {mem : Mem} {a : Nat} (h : a ∈ addrs mem) :
    ∃ c, lookupCell mem a = some c := by
  induction mem with
  | nil => simp [addrs] at h
  | cons p rest ih =>
    obtain ⟨k, d⟩ := p
    by_cases hka : k = a
    · exact ⟨d, by rw [lookupCell, if_pos hka]⟩
    · simp only [addrs, List.map_cons, List.mem_cons] at h
      rcases h with h | h
      · exact absurd h.symm hka
      · obtain ⟨c, hc⟩ := ih h
        exact ⟨c, by rw [lookupCell, if_neg hka]; exact hc⟩

theorem lookupCell_eq_none_of_not_mem {mem : Mem} {a : Nat}
    (h : a ∉ addrs mem) : lookupCell mem a = none := by
  cases hl : lookupCell mem a with
  | none => rfl
  | some c => exact absurd (mem_addrs_of_lookup hl) h

theorem addrs_eq_of_strip {mem mem' : Mem}
    (h : stripMark mem = stripMark mem') : addrs mem = addrs mem' := by
  have := congrArg (List.map Prod.fst) h
  simpa [stripMark, addrs, List.map_map, Function.comp] using this

theorem addrs_filter_sublist (mem : Mem) (p : Nat × Cell → Bool) :
    (addrs (mem.filter p)).Sublist (addrs mem) :=
  (List.filter_sublist mem).map Prod.fst

theorem lookupCell_filter {mem : Mem} (hnd : (addrs mem).Nodup)
    (p : Nat × Cell → Bool) (a : Nat) (c : Cell) :
    lookupCell (mem.filter p) a = some c ↔
      lookupCell mem a = some c ∧ p (a, c) = true := by
  induction mem with
  | nil => simp [lookupCell]
  | cons q rest ih =>
    obtain ⟨k, d⟩ := q
    simp only [addrs, List.map_cons, List.nodup_cons] at hnd
    obtain ⟨hknot, hndrest⟩ := hnd
    by_cases hka : k = a
    · subst hka
      rw [lookupCell, if_pos rfl]
      cases hp : p (k, d) with
      | true =>
        rw [List.filter_cons_of_pos hp, lookupCell, if_pos rfl]
        constructor
        · intro h
          injection h with h
          exact ⟨congrArg some h, h ▸ hp⟩
        · intro ⟨h, _⟩
          injection h with h
          exact congrArg some h
      | false =>
        rw [List.filter_cons_of_neg (by simp [hp])]
        have : lookupCell (rest.filter p) k = none := by
          apply lookupCell_eq_none_of_not_mem
          intro hmem
          exact hknot (List.Sublist.mem hmem (addrs_filter_sublist rest p))
        rw [this]
        constructor
        · intro h; exact absurd h (by simp)
        · intro ⟨h, hpc⟩
          injection h with h
          rw [← h] at hpc
          rw [hp] at hpc
          exact absurd hpc (by simp)
    · rw [lookupCell, if_neg hka]
      cases hp : p (k, d) with
      | true =>
        rw [List.filter_cons_of_pos hp, lookupCell, if_neg hka]
        exact ih hndrest
      | false =>
        rw [List.filter_cons_of_neg (by simp [hp])]
        exact ih hndrest

theorem collect_garbage_objects (h : Heap) (R : List Nat) :
    (h.collect_garbage R).1.objects =
      (markStack (clearMarks h.objects) R).filter (fun p => p.2.marked) :=
  rfl

theorem collect_garbage_freed (h : Heap) (R : List Nat) :
    (h.collect_garbage R).2 =
      ((markStack (clearMarks h.objects) R).filter
        (fun p => !p.2.marked)).map Prod.fst :=
  rfl

theorem stripMark_sweep (mem : Mem) (R : List Nat) :
    stripMark (markStack (clearMarks mem) R) = stripMark mem := by
  rw [stripMark_markStack, stripMark_clearMarks]

theorem nodup_addrs_sweep {mem : Mem} (hnd : (addrs mem).Nodup) (R : List Nat) :
    (addrs (markStack (clearMarks mem) R)).Nodup := by
  rw [addrs_eq_of_strip (stripMark_sweep mem R)]
  exact hnd

/-- Membership in the swept object set coincides with reachability. -/
theorem mem_addrs_sweep_iff {mem : Mem} (hnd : (addrs mem).Nodup)
    (R : List Nat) (a : Nat) :
    a ∈ addrs ((markStack (clearMarks mem) R).filter (fun p => p.2.marked)) ↔
      Reachable mem R a := by
  have hnd2 := nodup_addrs_sweep hnd R
  constructor
  · intro h
    obtain ⟨c, hc⟩ := lookup_some_of_mem_addrs h
    rw [lookupCell_filter hnd2] at hc
    have hm : markedAt (markStack (clearMarks mem) R) a = true := by
      unfold markedAt
      rw [hc.1]
      exact hc.2
    exact (markedAt_collect_iff mem R a).mp hm
  · intro h
    have hm := (markedAt_collect_iff mem R a).mpr h
    unfold markedAt at hm
    cases hc : lookupCell (markStack (clearMarks mem) R) a with
    | none => rw [hc] at hm; exact absurd hm (by simp)
    | some c =>
      rw [hc] at hm
      exact mem_addrs_of_lookup
        ((lookupCell_filter hnd2 (fun p => p.2.marked) a c).mpr ⟨hc, hm⟩)

/-- A cell reachable in the original store is present, with identical
payload, in the swept object set. -/
theorem lookup_sweep_of_reachable {mem : Mem} (hnd : (addrs mem).Nodup)
    {R : List Nat} {x : Nat} {cx : Cell} (hr : Reachable mem R x)
    (hl : lookupCell mem x = some cx) :
    ∃ cx', lookupCell
        ((markStack (clearMarks mem) R).filter (fun p => p.2.marked)) x =
        some cx' ∧ cx'.value = cx.value ∧ cx'.children = cx.children := by
  have hnd2 := nodup_addrs_sweep hnd R
  obtain ⟨c2, hl2, hv, hc⟩ := lookupCell_congr_some (stripMark_sweep mem R).symm hl
  have hm : markedAt (markStack (clearMarks mem) R) x = true :=
    (markedAt_collect_iff mem R x).mpr hr
  have hc2m : c2.marked = true := by
    unfold markedAt at hm
    rw [hl2] at hm
    exact hm
  exact ⟨c2, (lookupCell_filter hnd2 (fun p => p.2.marked) x c2).mpr ⟨hl2, hc2m⟩,
    hv, hc⟩

/-- Reachability transfers to the swept store: every step of a
derivation survives the sweep. -/
theorem Reachable_sweep {mem : Mem} (hnd : (addrs mem).Nodup)
    {R : List Nat} {a : Nat} (h : Reachable mem R a) :
    Reachable ((markStack (clearMarks mem) R).filter (fun p => p.2.marked))
      R a := by
  induction h with
  | root a c ha hl =>
    obtain ⟨c', hl', _, _⟩ := lookup_sweep_of_reachable hnd (.root a c ha hl) hl
    exact .root a c' ha hl'
  | child a b c cb hr hl hb hlb ih =>
    obtain ⟨c', hl', _, hch⟩ := lookup_sweep_of_reachable hnd hr hl
    obtain ⟨cb', hlb', _, _⟩ := lookup_sweep_of_reachable hnd
      (.child a b c cb hr hl hb hlb) hlb
    exact .child a b c' cb' ih hl' (hch ▸ hb) hlb'

/-- C1: for every heap (with distinct object addresses, as distinct live
boxes have distinct addresses) and every root slice `R`, after
`collect_garbage(R)` the heap's object set is exactly the set of cells
reachable from `R` by following managed-reference edges transitively:
every reachable cell survives and every unreachable cell is removed. -/
theorem collect_garbage_objects_iff_reachable (h : Heap) (R : List Nat)
    (hnd : (addrs h.objects).Nodup) (a : Nat) :
    a ∈ addrs (h.collect_garbage R).1.objects ↔ Reachable h.objects R a := by
  rw [collect_garbage_objects]
  exact mem_addrs_sweep_iff hnd R a

/-- Witness for C1 at a concrete heap: cells `0 ← 1` with root `1`; the
transitively reachable cell `0` survives the collection, and an
unrooted isolated cell `2` is removed. -/
theorem collect_garbage_objects_iff_reachable_witness :
    0 ∈ addrs ((Heap.mk
        [(0, ⟨false, 100, []⟩), (1, ⟨false, 200, [0]⟩), (2, ⟨false, 300, []⟩)]
        [1] 3).collect_garbage [1]).1.objects ∧
    ¬ Reachable (Heap.mk
        [(0, ⟨false, 100, []⟩), (1, ⟨false, 200, [0]⟩), (2, ⟨false, 300, []⟩)]
        [1] 3).objects [1] 2 := by
  constructor
  · exact (collect_garbage_objects_iff_reachable _ [1] (by decide) 0).mpr
      (.child 1 0 ⟨false, 200, [0]⟩ ⟨false, 100, []⟩
        (.root 1 ⟨false, 200, [0]⟩ (by decide) (by decide))
        (by decide) (by decide) (by decide))
  · intro hr
    have := (collect_garbage_objects_iff_reachable _ [1] (by decide) 2).mpr hr
    revert this
    decide

/-- C10: `collect_garbage` with an explicitly supplied root slice leaves
the heap's stored roots list completely unchanged — the sweep touches
only the object list, so in particular a registered root whose address
the slice omits, and whose cell is therefore swept, still remains in the
stored roots list after the call. -/
theorem collect_garbage_preserves_roots (h : Heap) (R : List Nat) :
    (h.collect_garbage R).1.roots = h.roots :=
  rfl

/-- C2 (amended): `Heap::allocate` maintains no allocation counter or
threshold and never triggers a collection: each call appends exactly one
fresh unmarked cell to the object list, leaves the roots and every
existing cell unchanged, and returns the new cell's address. -/
theorem allocate_never_collects (h : Heap) (v : Int) (cs : List Nat) :
    (h.allocate v cs).1.objects =
        h.objects ++ [(h.nextAddr, ⟨false, v, cs⟩)] ∧
      (h.allocate v cs).1.roots = h.roots ∧
      (h.allocate v cs).2 = h.nextAddr :=
  ⟨rfl, rfl, rfl⟩

/-- C2 (counterexample): the `Heap` of the source has no allocation
counter and `allocate` never runs a collection.  Start from a heap
holding one unmarked cell at address `0`, unreachable from the empty
root set.  The claim says some `T`-th allocation (for the configured
threshold `T > 0`) runs `collect_garbage` against the current root set
before returning, which would sweep cell `0` (collection with an empty
root set frees every cell, and no later allocation re-adds address
`0`).  In fact cell `0` is still allocated after any number of
allocations. -/
theorem allocate_never_collects_cx :
    ¬ ∃ T, 0 < T ∧
      0 ∉ addrs ((allocN ⟨[(0, ⟨false, 5, []⟩)], [], 1⟩ T).objects) := by
  have hall : ∀ n, 0 ∈ addrs ((allocN ⟨[(0, ⟨false, 5, []⟩)], [], 1⟩ n).objects) := by
    intro n
    induction n with
    | zero => decide
    | succ n ih =>
      show 0 ∈ addrs (((allocN ⟨[(0, ⟨false, 5, []⟩)], [], 1⟩ n).allocate
        0 []).1.objects)
      simp only [Heap.allocate, addrs, List.map_append]
      exact List.mem_append.mpr (Or.inl ih)
  rintro ⟨T, _, hT⟩
  exact hT (hall T)

/-- C9: `register_root` is idempotent and preserves at-most-once
membership: if the address occurs at most once in the root list (the
invariant the heap's own operations maintain), then after
`register_root(a)` it occurs exactly once, and registering an
already-present address leaves the heap entirely unchanged. -/
theorem register_root_idempotent (h : Heap) (a : Nat)
    (hcnt : h.roots.count a ≤ 1) :
    (h.register_root a).roots.count a = 1 ∧
      (a ∈ h.roots → h.register_root a = h) := by
  constructor
  · by_cases hmem : a ∈ h.roots
    · rw [Heap.register_root, if_pos hmem]
      have hpos : 0 < h.roots.count a := List.count_pos_iff.mpr hmem
      omega
    · rw [Heap.register_root, if_neg hmem]
      show (h.roots ++ [a]).count a = 1
      rw [List.count_append, List.count_eq_zero_of_not_mem hmem]
      simp
  · intro hmem
    rw [Heap.register_root, if_pos hmem]

/-- Witness for C9 at a concrete heap whose root list is `[0]`. -/
theorem register_root_idempotent_witness :
    ((Heap.mk [(0, ⟨false, 1, []⟩)] [0] 1).register_root 0).roots.count 0 = 1 ∧
      (0 ∈ (Heap.mk [(0, ⟨false, 1, []⟩)] [0] 1).roots →
        (Heap.mk [(0, ⟨false, 1, []⟩)] [0] 1).register_root 0 =
          Heap.mk [(0, ⟨false, 1, []⟩)] [0] 1) :=
  register_root_idempotent (Heap.mk [(0, ⟨false, 1, []⟩)] [0] 1) 0 (by decide)

/-- C4 (counterexample): the invariant roots ⊆ objects does NOT hold
after every Heap operation.  Build (via `new`, `allocate`,
`register_root`) a heap with one cell at address `0`, registered as a
root; then run `collect_garbage` with an explicit empty slice: the cell
is swept, but the stored roots list is untouched, so `0` is a root
naming no live cell. -/
theorem roots_subset_objects_cx :
    0 ∈ ((Heap.mk [(0, ⟨false, 5, []⟩)] [0] 1).collect_garbage []).1.roots ∧
      0 ∉ addrs
        ((Heap.mk [(0, ⟨false, 5, []⟩)] [0] 1).collect_garbage []).1.objects := by
  decide

/-- C4 (amended): roots ⊆ objects holds for `Heap::new` and is preserved
by `allocate`, by `register_root` of an allocated address, by
`unregister_root`, by `RootGuard` construction (of an allocated address)
and release, and by `collect_garbage` run with the heap's own stored
root set; it is not preserved by `collect_garbage` with an arbitrary
explicit slice, which can sweep a stored root's cell while leaving the
root registered. -/
theorem roots_subset_objects_preserved (h : Heap)
    (hinv : ∀ r ∈ h.roots, r ∈ addrs h.objects)
    (hnd : (addrs h.objects).Nodup) :
    (∀ r ∈ Heap.new.roots, r ∈ addrs Heap.new.objects) ∧
    (∀ v cs, ∀ r ∈ (h.allocate v cs).1.roots,
      r ∈ addrs (h.allocate v cs).1.objects) ∧
    (∀ a, a ∈ addrs h.objects → ∀ r ∈ (h.register_root a).roots,
      r ∈ addrs (h.register_root a).objects) ∧
    (∀ a, ∀ r ∈ (h.unregister_root a).roots,
      r ∈ addrs (h.unregister_root a).objects) ∧
    (∀ a, a ∈ addrs h.objects → ∀ r ∈ (RootGuard.new h a).heap.roots,
      r ∈ addrs (RootGuard.new h a).heap.objects) ∧
    (∀ g : RootGuard, (∀ r ∈ g.heap.roots, r ∈ addrs g.heap.objects) →
      ∀ r ∈ (RootGuard.drop g).roots, r ∈ addrs (RootGuard.drop g).objects) ∧
    (∀ r ∈ (h.collect_garbage h.roots).1.roots,
      r ∈ addrs (h.collect_garbage h.roots).1.objects) := by
  have hreg : ∀ a, a ∈ addrs h.objects → ∀ r ∈ (h.register_root a).roots,
      r ∈ addrs (h.register_root a).objects := by
    intro a ha r hr
    rw [Heap.register_root] at hr ⊢
    by_cases hmem : a ∈ h.roots
    · rw [if_pos hmem] at hr ⊢
      exact hinv r hr
    · rw [if_neg hmem] at hr ⊢
      rcases List.mem_append.mp hr with hr | hr
      · exact hinv r hr
      · simp only [List.mem_singleton] at hr
        subst hr
        exact ha
  refine ⟨?_, ?_, hreg, ?_, hreg, ?_, ?_⟩
  · intro r hr
    simp [Heap.new] at hr
  · intro v cs r hr
    have : r ∈ addrs h.objects := hinv r hr
    show r ∈ addrs (h.objects ++ [(h.nextAddr, ⟨false, v, cs⟩)])
    simp only [addrs, List.map_append]
    exact List.mem_append.mpr (Or.inl this)
  · intro a r hr
    rw [Heap.unregister_root] at hr
    simp only [List.mem_filter] at hr
    exact hinv r hr.1
  · intro g hginv r hr
    rw [RootGuard.drop, Heap.unregister_root] at hr
    simp only [List.mem_filter] at hr
    exact hginv r hr.1
  · intro r hr
    have hr' : r ∈ h.roots := hr
    have hro : r ∈ addrs h.objects := hinv r hr'
    obtain ⟨c, hc⟩ := lookup_some_of_mem_addrs hro
    rw [collect_garbage_objects]
    exact (mem_addrs_sweep_iff hnd h.roots r).mpr (.root r c hr' hc)

/-- Witness for the amended C4: on a concrete one-cell rooted heap,
collecting with the heap's own root set keeps roots ⊆ objects. -/
theorem roots_subset_objects_preserved_witness :
    0 ∈ addrs ((Heap.mk [(0, ⟨false, 5, []⟩)] [0] 1).collect_garbage
      (Heap.mk [(0, ⟨false, 5, []⟩)] [0] 1).roots).1.objects :=
  (roots_subset_objects_preserved (Heap.mk [(0, ⟨false, 5, []⟩)] [0] 1)
    (by decide) (by decide)).2.2.2.2.2.2 0 (by decide)

/-- C6: scoped rootedness via `RootGuard`.  Constructing a guard puts
the referenced cell's address in the heap's root set (the guard then
holds the heap's exclusive borrow, so the root set cannot change until
release), so the cell survives a collection run with the heap's own
roots; releasing the guard removes the address from the root set, and a
subsequent collection with the heap's roots sweeps the cell whenever no
remaining root reaches it. -/
theorem rootguard_scoping (h : Heap) (a : Nat)
    (hmem : a ∈ addrs h.objects) (hnd : (addrs h.objects).Nodup) :
    a ∈ (RootGuard.new h a).heap.roots ∧
    a ∈ addrs ((RootGuard.new h a).heap.collect_garbage
        (RootGuard.new h a).heap.roots).1.objects ∧
    a ∉ (RootGuard.drop (RootGuard.new h a)).roots ∧
    (¬ Reachable (RootGuard.drop (RootGuard.new h a)).objects
        (RootGuard.drop (RootGuard.new h a)).roots a →
      a ∉ addrs ((RootGuard.drop (RootGuard.new h a)).collect_garbage
          (RootGuard.drop (RootGuard.new h a)).roots).1.objects) := by
  have hroot : a ∈ (RootGuard.new h a).heap.roots := by
    show a ∈ (h.register_root a).roots
    rw [Heap.register_root]
    by_cases hin : a ∈ h.roots
    · rw [if_pos hin]; exact hin
    · rw [if_neg hin]
      exact List.mem_append.mpr (Or.inr (List.mem_singleton.mpr rfl))
  have hobj : (RootGuard.new h a).heap.objects = h.objects := by
    show (h.register_root a).objects = h.objects
    rw [Heap.register_root]
    by_cases hin : a ∈ h.roots
    · rw [if_pos hin]
    · rw [if_neg hin]
  refine ⟨hroot, ?_, ?_, ?_⟩
  · obtain ⟨c, hc⟩ := lookup_some_of_mem_addrs (hobj ▸ hmem :
      a ∈ addrs (RootGuard.new h a).heap.objects)
    rw [collect_garbage_objects]
    exact (mem_addrs_sweep_iff (by rw [hobj]; exact hnd) _ a).mpr
      (.root a c hroot hc)
  · show a ∉ ((RootGuard.new h a).heap.unregister_root a).roots
    rw [Heap.unregister_root]
    simp [List.mem_filter]
  · intro hnr hcontra
    rw [collect_garbage_objects] at hcontra
    have hnd' : (addrs (RootGuard.drop (RootGuard.new h a)).objects).Nodup := by
      show (addrs ((RootGuard.new h a).heap.unregister_root a).objects).Nodup
      rw [Heap.unregister_root]
      rw [show ((RootGuard.new h a).heap.objects : Mem) = h.objects from hobj]
      exact hnd
    exact hnr ((mem_addrs_sweep_iff hnd' _ a).mp hcontra)

/-- Witness for C6 at a concrete heap with a single cell at address `0`
and no other roots: the guard keeps the cell alive through a collection;
after release the cell is unreachable and the next collection with the
heap's roots removes it. -/
theorem rootguard_scoping_witness :
    0 ∈ (RootGuard.new (Heap.mk [(0, ⟨false, 7, []⟩)] [] 1) 0).heap.roots ∧
    0 ∈ addrs ((RootGuard.new (Heap.mk [(0, ⟨false, 7, []⟩)] [] 1)
        0).heap.collect_garbage
        (RootGuard.new (Heap.mk [(0, ⟨false, 7, []⟩)] [] 1)
          0).heap.roots).1.objects ∧
    0 ∉ addrs ((RootGuard.drop (RootGuard.new
        (Heap.mk [(0, ⟨false, 7, []⟩)] [] 1) 0)).collect_garbage
        (RootGuard.drop (RootGuard.new
          (Heap.mk [(0, ⟨false, 7, []⟩)] [] 1) 0)).roots).1.objects := by
  have H := rootguard_scoping (Heap.mk [(0, ⟨false, 7, []⟩)] [] 1) 0
    (by decide) (by decide)
  refine ⟨H.1, H.2.1, H.2.2.2 ?_⟩
  intro hr
  have := (markedAt_collect_iff _ _ 0).mpr hr
  revert this
  decide

/-- C8: `collect_garbage` never modifies the payload of a surviving
cell: every cell still allocated after the pass holds exactly its
previous value and outgoing references; only the mark bit is mutated by
the collector (each survivor ends the pass marked). -/
theorem collect_garbage_preserves_payload (h : Heap) (R : List Nat)
    (hnd : (addrs h.objects).Nodup) (a : Nat) (c : Cell)
    (hc : lookupCell (h.collect_garbage R).1.objects a = some c) :
    ∃ c₀, lookupCell h.objects a = some c₀ ∧ c.value = c₀.value ∧
      c.children = c₀.children ∧ c.marked = true := by
  rw [collect_garbage_objects] at hc
  have hnd2 := nodup_addrs_sweep hnd R
  rw [lookupCell_filter hnd2] at hc
  obtain ⟨hl2, hm⟩ := hc
  obtain ⟨c₀, hl0, hv, hch⟩ :=
    lookupCell_congr_some (stripMark_sweep h.objects R) hl2
  exact ⟨c₀, hl0, hv.symm, hch.symm, hm⟩

/-- Witness for C8: on the heap `0 ← 1` collected with root `1`, the
surviving cell `0` keeps value `100` and its (empty) children; only its
mark bit was set. -/
theorem collect_garbage_preserves_payload_witness :
    ∃ c₀, lookupCell (Heap.mk
        [(0, ⟨false, 100, []⟩), (1, ⟨false, 200, [0]⟩)] [] 2).objects 0 =
        some c₀ ∧
      (Cell.mk true 100 []).value = c₀.value ∧
      (Cell.mk true 100 []).children = c₀.children ∧
      (Cell.mk true 100 []).marked = true :=
  collect_garbage_preserves_payload
    (Heap.mk [(0, ⟨false, 100, []⟩), (1, ⟨false, 200, [0]⟩)] [] 2) [1]
    (by decide) 0 ⟨true, 100, []⟩ (by decide)

/-- C5: `collect_garbage` is idempotent on the surviving object set: a
second pass with the same root slice and no intervening mutation keeps
exactly the cells the first pass kept (no cell flips between collected
and kept). -/
theorem collect_garbage_idempotent (h : Heap) (R : List Nat)
    (hnd : (addrs h.objects).Nodup) (a : Nat) :
    (a ∈ addrs (((h.collect_garbage R).1.collect_garbage R).1.objects) ↔
      a ∈ addrs ((h.collect_garbage R).1.objects)) := by
  have hnd1 : (addrs (h.collect_garbage R).1.objects).Nodup := by
    rw [collect_garbage_objects]
    exact (nodup_addrs_sweep hnd R).sublist (addrs_filter_sublist _ _)
  constructor
  · intro hmem
    rw [collect_garbage_objects ((h.collect_garbage R).1) R] at hmem
    have hr1 : Reachable (h.collect_garbage R).1.objects R a :=
      (mem_addrs_sweep_iff hnd1 R a).mp hmem
    exact hr1.mem_addrs
  · intro hmem
    rw [collect_garbage_objects ((h.collect_garbage R).1) R]
    apply (mem_addrs_sweep_iff hnd1 R a).mpr
    rw [collect_garbage_objects] at hmem
    have hr : Reachable h.objects R a := (mem_addrs_sweep_iff hnd R a).mp hmem
    have := Reachable_sweep hnd hr
    rw [collect_garbage_objects]
    exact this

/-- Witness for C5 on a one-cell rooted heap: the cell kept by the first
pass is kept by the second. -/
theorem collect_garbage_idempotent_witness :
    0 ∈ addrs (((Heap.mk [(0, ⟨false, 1, []⟩)] [] 1).collect_garbage
        [0]).1.collect_garbage [0]).1.objects ↔
      0 ∈ addrs ((Heap.mk [(0, ⟨false, 1, []⟩)] [] 1).collect_garbage
        [0]).1.objects :=
  collect_garbage_idempotent (Heap.mk [(0, ⟨false, 1, []⟩)] [] 1) [0]
    (by decide) 0

theorem count_freed_eq : ∀ (mem : Mem), (addrs mem).Nodup →
    ∀ a ∈ addrs mem,
      ((mem.filter fun p => !p.2.marked).map Prod.fst).count a =
        if a ∈ addrs (mem.filter fun p => p.2.marked) then 0 else 1 := by
  intro mem
  induction mem with
  | nil => intro _ a ha; simp [addrs] at ha
  | cons q rest ih =>
    intro hnd a ha
    obtain ⟨k, d⟩ := q
    rw [addrs, List.map_cons, List.nodup_cons] at hnd
    obtain ⟨hknot, hndrest⟩ := hnd
    by_cases hka : k = a
    · subst hka
      have hfr : ((rest.filter fun p => !p.2.marked).map Prod.fst).count k = 0 := by
        apply List.count_eq_zero_of_not_mem
        intro hm
        exact hknot ((addrs_filter_sublist rest _).mem hm)
      have hkm : k ∉ addrs (rest.filter fun p => p.2.marked) := by
        intro hm
        exact hknot ((addrs_filter_sublist rest _).mem hm)
      cases hd : d.marked with
      | true =>
        rw [List.filter_cons_of_neg (by simp [hd]),
          List.filter_cons_of_pos (by simp [hd])]
        rw [if_pos (by simp [addrs])]
        exact hfr
      | false =>
        rw [List.filter_cons_of_pos (by simp [hd]),
          List.filter_cons_of_neg (by simp [hd])]
        rw [if_neg hkm]
        simp only [List.map_cons, List.count_cons_self]
        rw [hfr]
    · have ha' : a ∈ addrs rest := by
        rcases List.mem_cons.mp (by simpa only [addrs, List.map_cons] using ha)
          with h | h
        · exact absurd h.symm hka
        · exact h
      have hrec := ih hndrest a ha'
      cases hd : d.marked with
      | true =>
        rw [List.filter_cons_of_neg (by simp [hd]),
          List.filter_cons_of_pos (by simp [hd])]
        by_cases hm : a ∈ addrs (rest.filter fun p => p.2.marked)
        · rw [if_pos (by
            simp only [addrs, List.map_cons, List.mem_cons]
            exact Or.inr hm)]
          rw [if_pos hm] at hrec
          exact hrec
        · rw [if_neg (by
            intro hmem
            simp only [addrs, List.map_cons, List.mem_cons] at hmem
            rcases hmem with h | h
            · exact hka h.symm
            · exact hm h)]
          rw [if_neg hm] at hrec
          exact hrec
      | false =>
        rw [List.filter_cons_of_pos (by simp [hd]),
          List.filter_cons_of_neg (by simp [hd])]
        simp only [List.map_cons]
        rw [List.count_cons_of_ne (fun h => hka h.symm)]
        exact hrec

/-- C7: in one `collect_garbage` pass, every cell removed from the
object set (found unmarked at sweep) is dropped exactly once — its
address appears exactly once in the pass's destruction log, where the
single drop runs the payload's finalization and then releases the box's
storage — and every cell kept in the object set is not dropped at all. -/
theorem sweep_finalizes_exactly_once (h : Heap) (R : List Nat)
    (hnd : (addrs h.objects).Nodup) :
    ∀ a ∈ addrs h.objects,
      (h.collect_garbage R).2.count a =
        if a ∈ addrs (h.collect_garbage R).1.objects then 0 else 1 := by
  intro a ha
  rw [collect_garbage_objects, collect_garbage_freed]
  have hnd2 := nodup_addrs_sweep hnd R
  apply count_freed_eq _ hnd2
  rw [addrs_eq_of_strip (stripMark_sweep h.objects R)]
  exact ha

/-- Witness for C7: collecting the heap `{0, 1}` with root `1` frees
cell `0` exactly once and does not free the kept cell `1`. -/
theorem sweep_finalizes_exactly_once_witness :
    ((Heap.mk [(0, ⟨false, 1, []⟩), (1, ⟨false, 2, []⟩)] [] 2).collect_garbage
        [1]).2.count 0 =
      (if 0 ∈ addrs ((Heap.mk [(0, ⟨false, 1, []⟩), (1, ⟨false, 2, []⟩)]
          [] 2).collect_garbage [1]).1.objects then 0 else 1) :=
  sweep_finalizes_exactly_once
    (Heap.mk [(0, ⟨false, 1, []⟩), (1, ⟨false, 2, []⟩)] [] 2) [1]
    (by decide) 0 (by decide)

theorem markStackLog_unmarked {mem : Mem} {stack : List Nat} :
    ∀ b ∈ (markStackLog mem stack).2, markedAt mem b = false := by
  induction mem, stack using markStack_induction with
  | base mem =>
    intro b hb
    rw [markStackLog_nil] at hb
    simp at hb
  | skip_missing mem a rest hl ih =>
    intro b hb
    rw [markStackLog_cons_none rest hl] at hb
    exact ih b hb
  | skip_marked mem a rest c hl hm ih =>
    intro b hb
    rw [markStackLog_cons_marked rest hl hm] at hb
    exact ih b hb
  | mark mem a rest c hl hm ih =>
    intro b hb
    rw [markStackLog_cons_unmarked rest hl hm] at hb
    rcases List.mem_cons.mp hb with h | h
    · subst h
      unfold markedAt
      rw [hl]
      exact hm
    · have hset := ih b h
      by_cases hab : a = b
      · subst hab
        have h1 := markedAt_setMarked_self hl
        rw [hset] at h1
        exact absurd h1 (by simp)
      · unfold markedAt at hset ⊢
        rw [lookupCell_setMarked_ne mem hab] at hset
        exact hset

theorem markStackLog_nodup (mem : Mem) (stack : List Nat) :
    (markStackLog mem stack).2.Nodup := by
  induction mem, stack using markStack_induction with
  | base mem => rw [markStackLog_nil]; exact List.nodup_nil
  | skip_missing mem a rest hl ih =>
    rw [markStackLog_cons_none rest hl]; exact ih
  | skip_marked mem a rest c hl hm ih =>
    rw [markStackLog_cons_marked rest hl hm]; exact ih
  | mark mem a rest c hl hm ih =>
    rw [markStackLog_cons_unmarked rest hl hm, List.nodup_cons]
    refine ⟨?_, ih⟩
    intro hmem
    have hset := markStackLog_unmarked a hmem
    have h1 := markedAt_setMarked_self hl
    rw [hset] at h1
    exact absurd h1 (by simp)

theorem markStackLog_domain {mem : Mem} {stack : List Nat} :
    ∀ b ∈ (markStackLog mem stack).2, b ∈ addrs mem := by
  induction mem, stack using markStack_induction with
  | base mem =>
    intro b hb
    rw [markStackLog_nil] at hb
    simp at hb
  | skip_missing mem a rest hl ih =>
    intro b hb
    rw [markStackLog_cons_none rest hl] at hb
    exact ih b hb
  | skip_marked mem a rest c hl hm ih =>
    intro b hb
    rw [markStackLog_cons_marked rest hl hm] at hb
    exact ih b hb
  | mark mem a rest c hl hm ih =>
    intro b hb
    rw [markStackLog_cons_unmarked rest hl hm] at hb
    rcases List.mem_cons.mp hb with h | h
    · subst h
      exact mem_addrs_of_lookup hl
    · have := ih b h
      rwa [addrs_eq_of_strip (stripMark_setMarked mem a)] at this

/-- C3: the mark phase terminates on every object graph, cyclic ones
included — the traversal is a total function of the heap, possible
because a cell is marked before its children are traced, so a cycle
closes on an already-marked cell — and each cell's payload trace
operation is invoked at most once per collection: the invocation log of
`collect_garbage(R)`'s mark phase has no duplicate address, names only
allocated cells, and hence has length at most the object count. -/
theorem mark_phase_traces_each_cell_at_most_once (h : Heap) (R : List Nat) :
    (h.collectTraceLog R).Nodup ∧
      (∀ b ∈ h.collectTraceLog R, b ∈ addrs h.objects) ∧
      (h.collectTraceLog R).length ≤ h.objects.length := by
  have hdom : ∀ b ∈ h.collectTraceLog R, b ∈ addrs h.objects := by
    intro b hb
    have := markStackLog_domain b hb
    rwa [addrs_eq_of_strip (stripMark_clearMarks h.objects)] at this
  refine ⟨markStackLog_nodup _ _, hdom, ?_⟩
  have hsub := List.subperm_of_subset (markStackLog_nodup _ _) hdom
  have := hsub.length_le
  rwa [addrs, List.length_map] at this

/-- Witness for C3 on a two-cell cycle (`0 ↔ 1`) rooted at `0`: the
traversal completes and logs each cell at most once. -/
theorem mark_phase_traces_each_cell_at_most_once_witness :
    ((Heap.mk [(0, ⟨false, 1, [1]⟩), (1, ⟨false, 2, [0]⟩)] []
        2).collectTraceLog [0]).Nodup ∧
      ((Heap.mk [(0, ⟨false, 1, [1]⟩), (1, ⟨false, 2, [0]⟩)] []
        2).collectTraceLog [0]).length ≤
        (Heap.mk [(0, ⟨false, 1, [1]⟩), (1, ⟨false, 2, [0]⟩)] []
          2).objects.length :=
  ⟨(mark_phase_traces_each_cell_at_most_once
      (Heap.mk [(0, ⟨false, 1, [1]⟩), (1, ⟨false, 2, [0]⟩)] [] 2) [0]).1,
    (mark_phase_traces_each_cell_at_most_once
      (Heap.mk [(0, ⟨false, 1, [1]⟩), (1, ⟨false, 2, [0]⟩)] [] 2) [0]).2.2⟩
